import Mathlib

/-!
Shallow embedding of the congkit library (src/src/lib.rs): a Cangjie-style
code-table engine.  Rust strings are modelled as Lean `String` (with the
underlying `List Char` used where Rust iterates over `chars()`), `HashMap`
is modelled as an association list with replace-on-insert semantics,
`i32` as `Int` with an explicit range check at the only place Rust parses
one, and panicking constructions (`unwrap`) as `Except`/`Option` failure.
-/

/-- Mirrors `enum CongkitVersion { V3, V5 }`. -/
inductive CongkitVersion where
  | V3
  | V5
deriving DecidableEq, Repr

/-- Mirrors `struct CongkitFilter` (nine category booleans). -/
structure CongkitFilter where
  chinese : Bool
  big5 : Bool
  hkscs : Bool
  taiwanese : Bool
  kanji : Bool
  hiragana : Bool
  katakana : Bool
  punctuation : Bool
  misc : Bool
deriving DecidableEq, Repr

namespace CongkitFilter

/-- Mirrors `CongkitFilter::all()`. -/
def all : CongkitFilter :=
  { chinese := true, big5 := true, hkscs := true, taiwanese := true,
    kanji := true, hiragana := true, katakana := true, punctuation := true,
    misc := true }

/-- Mirrors `CongkitFilter::chinese()` (also the `Default`). -/
def chineseFilter : CongkitFilter :=
  { chinese := true, big5 := true, hkscs := true, taiwanese := true,
    kanji := false, hiragana := false, katakana := false, punctuation := false,
    misc := false }

/-- Mirrors `CongkitFilter::japanese()`. -/
def japanese : CongkitFilter :=
  { chinese := false, big5 := false, hkscs := false, taiwanese := false,
    kanji := true, hiragana := true, katakana := true, punctuation := false,
    misc := false }

end CongkitFilter

/-- Mirrors `struct Entry` (field for field, in declaration order).
`order: i32` is modelled as `Int`; the only place the program produces an
`order` is `str::parse::<i32>`, modelled below with the `i32` range check. -/
structure Entry where
  traditional : Char
  simplified : Char
  chinese : Bool
  big5 : Bool
  hkscs : Bool
  taiwanese : Bool
  kanji : Bool
  hiragana : Bool
  katakana : Bool
  punctuation : Bool
  misc : Bool
  v3 : String
  v5 : String
  code : String
  shortcut : String
  order : Int
deriving DecidableEq, Repr

/-- Error for a malformed text-table line.  In the Rust source the failure
is a panic inside `unwrap()`/`parse().unwrap()`; the embedding surfaces it
as an `Except` error. -/
inductive ParseError where
  | malformedLine
deriving DecidableEq, Repr

/-- Error for a structurally invalid binary blob (`bitcode::decode` failure). -/
inductive DecodeError where
  | invalidData
deriving DecidableEq, Repr

/-- Error for an invalid wildcard pattern (`Regex::new` failure). -/
inductive PatternError where
  | invalid
deriving DecidableEq, Repr

deriving instance DecidableEq for Except

/-- Rust `str::split(sep)` on a character list: splits at every occurrence
of `sep`, keeping empty segments (`"".split(sep)` is `[""]`). -/
def splitChar (sep : Char) : List Char → List (List Char)
  | [] => [[]]
  | c :: rest =>
    match splitChar sep rest with
    | [] => [[c]]
    | g :: gs => if c = sep then [] :: g :: gs else (c :: g) :: gs

/-- Rust `str::parse::<i32>()`: optional single leading `+`/`-`, then one or
more ASCII digits, and the value must fit in `i32`. -/
def parseI32 (s : List Char) : Option Int :=
  let (neg, ds) :=
    match s with
    | '+' :: r => (false, r)
    | '-' :: r => (true, r)
    | r => (false, r)
  if ds.isEmpty then none
  else if ds.all Char.isDigit then
    let n : Nat := ds.foldl (fun acc c => 10 * acc + (c.toNat - 48)) 0
    let v : Int := if neg then -(n : Int) else (n : Int)
    if -(2 ^ 31) ≤ v ∧ v < 2 ^ 31 then some v else none
  else none

/-- One line of the text table, already split on `' '` into fields.
Mirrors the closure in `to_entries`: `fields.get(i).unwrap()` needs at
least 15 fields (extra fields are ignored), `chars().nth(0).unwrap()`
needs a nonempty field, and the order field must parse as `i32`; each
failing `unwrap` is `none` here. -/
def parseFields : List (List Char) → Option Entry
  | f0 :: f1 :: f2 :: f3 :: f4 :: f5 :: f6 :: f7 :: f8 :: f9 :: f10 ::
      f11 :: f12 :: f13 :: f14 :: _ => do
    let tr ← f0.head?
    let si ← f1.head?
    let od ← parseI32 f14
    some
      { traditional := tr
        simplified := si
        chinese := f2 == ['1']
        big5 := f3 == ['1']
        hkscs := f4 == ['1']
        taiwanese := f5 == ['1']
        kanji := f6 == ['1']
        hiragana := f7 == ['1']
        katakana := f8 == ['1']
        punctuation := f9 == ['1']
        misc := f10 == ['1']
        v3 := String.mk f11
        v5 := String.mk f12
        code := ""
        shortcut := String.mk f13
        order := od }
  | _ => none

/-- Parse one non-skipped line (`line.split(' ')` then the field reads). -/
def parseLine (line : List Char) : Except ParseError Entry :=
  match parseFields (splitChar ' ' line) with
  | some e => Except.ok e
  | none => Except.error ParseError.malformedLine

/-- `line.starts_with("# ") || line.is_empty()`: the skip condition. -/
def isSkippedLine (line : List Char) : Bool :=
  line.take 2 == ['#', ' '] || line.isEmpty

/-- The lines of the input text that are actually parsed:
`txt.split('\n')` minus comments and empty lines. -/
def relevantLines (txt : String) : List (List Char) :=
  (splitChar '\n' txt.data).filter (fun l => !isSkippedLine l)

/-- Effectful map over a list, short-circuiting on the first error — the
behaviour of driving Rust's lazy `map(...)` iterator whose closure can
panic (the first malformed item aborts the whole collection). -/
def mapME (f : α → Except ε β) : List α → Except ε (List β)
  | [] => Except.ok []
  | x :: xs =>
    match f x with
    | Except.error e => Except.error e
    | Except.ok y =>
      match mapME f xs with
      | Except.error e => Except.error e
      | Except.ok ys => Except.ok (y :: ys)

/-- All non-skipped lines parsed, first failure aborting. -/
def parsedEntries (txt : String) : Except ParseError (List Entry) :=
  mapME parseLine (relevantLines txt)

/-- Mirrors `CongkitDB::apply_filters`: OR over the nine (flag, bit) pairs. -/
def apply_filters (entry : Entry) (filter : CongkitFilter) : Bool :=
  (entry.chinese && filter.chinese)
    || (entry.big5 && filter.big5)
    || (entry.hkscs && filter.hkscs)
    || (entry.taiwanese && filter.taiwanese)
    || (entry.kanji && filter.kanji)
    || (entry.hiragana && filter.hiragana)
    || (entry.katakana && filter.katakana)
    || (entry.punctuation && filter.punctuation)
    || (entry.misc && filter.misc)

/-- Mirrors `CongkitDB::to_entries`: parse every non-skipped line, then
keep the lines passing the filter.  (The Rust iterator chain
`map(parse).filter(passes).collect()` parses each line before filtering
it, so a malformed line aborts the call whether or not it would have
passed the filter; parsing everything first and then filtering is the
same computation.) -/
def to_entries (txt : String) (filter : CongkitFilter) :
    Except ParseError (List Entry) :=
  (parsedEntries txt).map (List.filter (fun e => apply_filters e filter))

/-- Association-list model of `HashMap` insertion: replace the value if the
key is present, otherwise add the pair. -/
def hmInsert [DecidableEq κ] (m : List (κ × β)) (kv : κ × β) : List (κ × β) :=
  match m with
  | [] => [kv]
  | (k, v) :: rest =>
    if k = kv.1 then kv :: rest else (k, v) :: hmInsert rest kv

/-- Association-list model of `HashMap` lookup. -/
def hmGet [DecidableEq κ] (m : List (κ × β)) (q : κ) : Option β :=
  (m.find? (fun p => p.1 == q)).map Prod.snd

/-- `HashMap::values()` of the association-list model. -/
def hmValues (m : List (κ × β)) : List β :=
  m.map Prod.snd

/-- `collect::<HashMap<_, _>>()`: insert the pairs in order (later pairs
overwrite earlier ones with the same key). -/
def hmOfList [DecidableEq κ] (l : List (κ × β)) : List (κ × β) :=
  l.foldl hmInsert []

/-- The 25 (radical, key) pairs of `BiMap::from_iter` in `CongkitDB::default`
(both columns are pairwise distinct, so the `BiMap` holds exactly them). -/
def radicalPairs : List (Char × Char) :=
  [('日', 'a'), ('月', 'b'), ('金', 'c'), ('木', 'd'), ('水', 'e'),
   ('火', 'f'), ('土', 'g'), ('竹', 'h'), ('戈', 'i'), ('十', 'j'),
   ('大', 'k'), ('中', 'l'), ('一', 'm'), ('弓', 'n'), ('人', 'o'),
   ('心', 'p'), ('手', 'q'), ('口', 'r'), ('尸', 's'), ('廿', 't'),
   ('山', 'u'), ('女', 'v'), ('田', 'w'), ('難', 'x'), ('卜', 'y')]

/-- Mirrors `struct CongkitDB`. -/
structure CongkitDB where
  entries : List (Char × Entry)
  version : CongkitVersion
  radicals : List (Char × Char)
deriving DecidableEq, Repr

namespace CongkitDB

/-- Mirrors `impl Default for CongkitDB`. -/
def defaultDB : CongkitDB :=
  { entries := [], version := CongkitVersion.V3, radicals := radicalPairs }

/-- Mirrors `get_radical` (`BiMap::get_by_right`). -/
def get_radical (db : CongkitDB) (key : Char) : Option Char :=
  (db.radicals.find? (fun p => p.2 == key)).map Prod.fst

/-- Mirrors `get_key` (`BiMap::get_by_left`). -/
def get_key (db : CongkitDB) (radical : Char) : Option Char :=
  (db.radicals.find? (fun p => p.1 == radical)).map Prod.snd

/-- Mirrors `get_radicals`: per-character substitution, unknown characters
pass through. -/
def get_radicals (db : CongkitDB) (code : String) : String :=
  String.mk (code.data.map (fun c =>
    match db.get_radical c with
    | some ch => ch
    | none => c))

/-- Mirrors `get_code`. -/
def get_code (db : CongkitDB) (character : Char) : Option String :=
  (hmGet db.entries character).map Entry.code

/-- Mirrors `get_codes`. -/
def get_codes (db : CongkitDB) (chars : List Char) : List (Option String) :=
  chars.map (fun c => db.get_code c)

end CongkitDB

/-- The selection `entry.code = match version { V3 => v3, V5 => v5 }`
performed inside `from_entry_vec`'s closure. -/
def setCode (version : CongkitVersion) (e : Entry) : Entry :=
  { e with
    code := match version with
            | CongkitVersion.V3 => e.v3
            | CongkitVersion.V5 => e.v5 }

namespace CongkitDB

/-- Mirrors `CongkitDB::from_entry_vec`: set the active code, key by
`traditional` into the map (last wins), keep the default radicals. -/
def from_entry_vec (entry_vec : List Entry) (version : CongkitVersion) :
    CongkitDB :=
  { entries := hmOfList (entry_vec.map (fun e => (e.traditional, setCode version e)))
    version := version
    radicals := radicalPairs }

/-- Mirrors `CongkitDB::from_txt`. -/
def from_txt (txt : String) (version : CongkitVersion)
    (filter : CongkitFilter) : Except ParseError CongkitDB :=
  (to_entries txt filter).map (fun entries => from_entry_vec entries version)

end CongkitDB

/-- The compiled form of the regex `^ pat.replace('*', ".+") $`, for the
fragment of regex syntax such patterns can produce: literal characters,
`.` (any character but newline), and `+` on the preceding atom. -/
inductive Token where
  | lit (c : Char)
  | litPlus (c : Char)
  | dot
  | dotPlus
deriving DecidableEq, Repr

/-- Regex metacharacters (other than `.` and `+`, which the compiler below
handles): a pattern character from this set hands the regex engine syntax
this model does not cover, so the model conservatively reports a pattern
error there.  `*` never survives `replace('*', ".+")` but is reserved. -/
def regexMeta : List Char :=
  ['(', ')', '[', ']', Char.ofNat 123, Char.ofNat 125, '|', '?', '\\',
   '^', '$', '*']

/-- Compile an already-`replace`d character list to tokens.  `.`/`c`
followed by `+` become one-or-more atoms; a dangling `+` (nothing to
repeat, as in regex `^+$` or a doubled `++`) is a compile error, as in the
`regex` crate. -/
def compileTokens : List Char → Except PatternError (List Token)
  | [] => Except.ok []
  | [c] =>
    if c = '.' then Except.ok [Token.dot]
    else if c = '+' then Except.error PatternError.invalid
    else if c ∈ regexMeta then Except.error PatternError.invalid
    else Except.ok [Token.lit c]
  | c :: d :: rest =>
    if c = '.' then
      if d = '+' then (compileTokens rest).map (fun ts => Token.dotPlus :: ts)
      else (compileTokens (d :: rest)).map (fun ts => Token.dot :: ts)
    else if c = '+' then Except.error PatternError.invalid
    else if c ∈ regexMeta then Except.error PatternError.invalid
    else
      if d = '+' then (compileTokens rest).map (fun ts => Token.litPlus c :: ts)
      else (compileTokens (d :: rest)).map (fun ts => Token.lit c :: ts)

/-- `code.replace('*', ".+")` on the character list. -/
def replaceStar : List Char → List Char
  | [] => []
  | c :: rest => (if c = '*' then ['.', '+'] else [c]) ++ replaceStar rest

/-- `Regex::new(&format!("^{}$", code.replace('*', ".+")))`: anchoring is
implicit in the whole-list matcher below. -/
def compilePattern (code : String) : Except PatternError (List Token) :=
  compileTokens (replaceStar code.data)

/-- Anchored matching of a token list against a whole string (the
behaviour of `re.is_match` for the `^...$` regexes built above).  `.`
matches any character except `'\n'`, as in the `regex` crate. -/
def tokensMatch : List Token → List Char → Bool
  | [], [] => true
  | _ :: _, [] => false
  | [], _ :: _ => false
  | Token.lit c :: ts, x :: xs => c == x && tokensMatch ts xs
  | Token.litPlus c :: ts, x :: xs =>
    c == x && (tokensMatch ts xs || tokensMatch (Token.litPlus c :: ts) xs)
  | Token.dot :: ts, x :: xs => x != '\n' && tokensMatch ts xs
  | Token.dotPlus :: ts, x :: xs =>
    x != '\n' && (tokensMatch ts xs || tokensMatch (Token.dotPlus :: ts) xs)

/-- The ordering used by `filt.sort_by(|a, b| a.order.cmp(&b.order))`. -/
def entryLE (a b : Entry) : Prop := a.order ≤ b.order

instance : DecidableRel entryLE := fun a b =>
  inferInstanceAs (Decidable (a.order ≤ b.order))

instance : IsTotal Entry entryLE := ⟨fun a b => Int.le_total a.order b.order⟩

instance : IsTrans Entry entryLE :=
  ⟨fun _ _ _ h1 h2 => le_trans h1 h2⟩

/-- The entries of the table matching a compiled pattern, sorted ascending
by `order` (a stable sort, like Rust `sort_by`). -/
def matchingSorted (db : CongkitDB) (ts : List Token) : List Entry :=
  List.insertionSort entryLE
    ((hmValues db.entries).filter (fun e => tokensMatch ts e.code.data))

namespace CongkitDB

/-- Mirrors `get_characters`: compile the pattern, scan all entries,
sort the matches by `order`, return their `traditional` characters. -/
def get_characters (db : CongkitDB) (code : String) :
    Except PatternError (List Char) :=
  (compilePattern code).map (fun ts => (matchingSorted db ts).map Entry.traditional)

/-- Mirrors `get_chars_mult`: compile every pattern up front (first invalid
pattern aborts), then compute each pattern's matches from one scan of the
table and sort each match list by `order`.  The result `HashMap` keyed by
pattern is the association list keyed by pattern. -/
def get_chars_mult (db : CongkitDB) (codes : List String) :
    Except PatternError (List (String × List Char)) :=
  (mapME (fun c => (compilePattern c).map (fun ts => (c, ts))) codes).map
    (fun pairs =>
      (hmOfList pairs).map (fun p =>
        (p.1, (matchingSorted db p.2).map Entry.traditional)))

end CongkitDB

/-- Modelled from the spec: the binary table format.  The codec itself
(`bitcode::encode` / `bitcode::decode`, an external crate driven by
`examples/trim_table.rs` and `from_data`) is not in `src`, so following
§4.2(3) of the spec it is modelled as "a deterministic, self-describing
binary encoding of an ordered sequence of Entries (field-for-field, no
extraneous metadata)".  A string is its length followed by its character
codes. -/
def encodeString (s : String) : List Nat :=
  s.data.length :: s.data.map Char.toNat

/-- Modelled from the spec: one boolean of the binary format. -/
def encodeBool (b : Bool) : List Nat :=
  [if b then 1 else 0]

/-- Modelled from the spec: one signed integer of the binary format
(sign marker then magnitude). -/
def encodeInt (i : Int) : List Nat :=
  if i < 0 then [1, i.natAbs] else [0, i.natAbs]

/-- Modelled from the spec: one `Entry`, field for field, in declaration
order. -/
def encodeEntry (e : Entry) : List Nat :=
  [e.traditional.toNat, e.simplified.toNat]
    ++ encodeBool e.chinese ++ encodeBool e.big5 ++ encodeBool e.hkscs
    ++ encodeBool e.taiwanese ++ encodeBool e.kanji ++ encodeBool e.hiragana
    ++ encodeBool e.katakana ++ encodeBool e.punctuation ++ encodeBool e.misc
    ++ encodeString e.v3 ++ encodeString e.v5 ++ encodeString e.code
    ++ encodeString e.shortcut ++ encodeInt e.order

/-- Concatenated encodings of a list of entries. -/
def encodeEntriesAux : List Entry → List Nat
  | [] => []
  | e :: rest => encodeEntry e ++ encodeEntriesAux rest

/-- Modelled from the spec: the serialized ordered sequence of Entries
(count, then each entry). -/
def encodeEntries (l : List Entry) : List Nat :=
  l.length :: encodeEntriesAux l

/-- Decoder primitives: each consumes a prefix of the data and returns the
decoded value and the remainder, failing on structurally invalid data. -/
def dNat : List Nat → Except DecodeError (Nat × List Nat)
  | [] => Except.error DecodeError.invalidData
  | n :: r => Except.ok (n, r)

/-- Decode one character (an invalid scalar value is a decode error). -/
def dChar : List Nat → Except DecodeError (Char × List Nat)
  | [] => Except.error DecodeError.invalidData
  | n :: r =>
    if n.isValidChar then Except.ok (Char.ofNat n, r)
    else Except.error DecodeError.invalidData

/-- Decode one boolean. -/
def dBool : List Nat → Except DecodeError (Bool × List Nat)
  | 0 :: r => Except.ok (false, r)
  | 1 :: r => Except.ok (true, r)
  | _ => Except.error DecodeError.invalidData

/-- Decode one signed integer. -/
def dInt : List Nat → Except DecodeError (Int × List Nat)
  | 0 :: m :: r => Except.ok ((m : Int), r)
  | 1 :: m :: r => Except.ok (-(m : Int), r)
  | _ => Except.error DecodeError.invalidData

/-- Decode `n` characters. -/
def dChars : Nat → List Nat → Except DecodeError (List Char × List Nat)
  | 0, r => Except.ok ([], r)
  | n + 1, data =>
    match dChar data with
    | Except.error e => Except.error e
    | Except.ok (c, r) =>
      match dChars n r with
      | Except.error e => Except.error e
      | Except.ok (cs, r2) => Except.ok (c :: cs, r2)

/-- Decode one string (length then characters). -/
def dString (data : List Nat) : Except DecodeError (String × List Nat) := do
  let (n, r) ← dNat data
  let (cs, r2) ← dChars n r
  pure (String.mk cs, r2)

/-- Decode one `Entry`, field for field. -/
def dEntry (data : List Nat) : Except DecodeError (Entry × List Nat) := do
  let (tr, r1) ← dChar data
  let (si, r2) ← dChar r1
  let (fChinese, r3) ← dBool r2
  let (fBig5, r4) ← dBool r3
  let (fHkscs, r5) ← dBool r4
  let (fTaiwanese, r6) ← dBool r5
  let (fKanji, r7) ← dBool r6
  let (fHiragana, r8) ← dBool r7
  let (fKatakana, r9) ← dBool r8
  let (fPunctuation, r10) ← dBool r9
  let (fMisc, r11) ← dBool r10
  let (sV3, r12) ← dString r11
  let (sV5, r13) ← dString r12
  let (sCode, r14) ← dString r13
  let (sShortcut, r15) ← dString r14
  let (iOrder, r16) ← dInt r15
  pure
    ({ traditional := tr, simplified := si, chinese := fChinese,
       big5 := fBig5, hkscs := fHkscs, taiwanese := fTaiwanese,
       kanji := fKanji, hiragana := fHiragana, katakana := fKatakana,
       punctuation := fPunctuation, misc := fMisc, v3 := sV3, v5 := sV5,
       code := sCode, shortcut := sShortcut, order := iOrder }, r16)

/-- Decode `n` entries. -/
def dEntriesN : Nat → List Nat → Except DecodeError (List Entry × List Nat)
  | 0, r => Except.ok ([], r)
  | n + 1, data =>
    match dEntry data with
    | Except.error e => Except.error e
    | Except.ok (entry, r) =>
      match dEntriesN n r with
      | Except.error e => Except.error e
      | Except.ok (es, r2) => Except.ok (entry :: es, r2)

/-- Modelled from the spec: `bitcode::decode::<Vec<Entry>>` — decode the
whole blob into the entry sequence, any structural violation (or trailing
garbage) being a `DecodeError`. -/
def decodeEntries (data : List Nat) : Except DecodeError (List Entry) := do
  let (n, r) ← dNat data
  let (es, r2) ← dEntriesN n r
  if r2.isEmpty then pure es else Except.error DecodeError.invalidData

namespace CongkitDB

/-- Mirrors `CongkitDB::from_data`: decode, filter with `apply_filters`,
build with `from_entry_vec`. -/
def from_data (data : List Nat) (version : CongkitVersion)
    (filter : CongkitFilter) : Except DecodeError CongkitDB :=
  (decodeEntries data).map (fun es =>
    from_entry_vec (es.filter (fun e => apply_filters e filter)) version)

end CongkitDB

lemma toNat_isValidChar (c : Char) : c.toNat.isValidChar := by
  have h := c.valid
  unfold UInt32.isValidChar at h
  exact h

lemma dChar_encode (c : Char) (r : List Nat) :
    dChar (c.toNat :: r) = Except.ok (c, r) := by
  simp [dChar, toNat_isValidChar c, Char.ofNat_toNat]

lemma dBool_encode (b : Bool) (r : List Nat) :
    dBool (encodeBool b ++ r) = Except.ok (b, r) := by
  cases b <;> simp [dBool, encodeBool]

lemma dInt_encode (i : Int) (r : List Nat) :
    dInt (encodeInt i ++ r) = Except.ok (i, r) := by
  by_cases h : i < 0
  · simp only [encodeInt, if_pos h, List.cons_append, List.nil_append, dInt]
    congr 1
    congr 1
    omega
  · simp only [encodeInt, if_neg h, List.cons_append, List.nil_append, dInt]
    congr 1
    congr 1
    omega

lemma dChars_encode (cs : List Char) (r : List Nat) :
    dChars cs.length (cs.map Char.toNat ++ r) = Except.ok (cs, r) := by
  induction cs with
  | nil => simp [dChars]
  | cons c rest ih => simp [dChars, dChar_encode, ih]

lemma dString_encode (s : String) (r : List Nat) :
    dString (encodeString s ++ r) = Except.ok (s, r) := by
  obtain ⟨cs⟩ := s
  simp [dString, encodeString, dNat, dChars_encode, bind, Except.bind,
    Functor.map, Except.map, pure, Except.pure]

lemma dEntry_encode (e : Entry) (r : List Nat) :
    dEntry (encodeEntry e ++ r) = Except.ok (e, r) := by
  simp [dEntry, encodeEntry, List.append_assoc, List.cons_append,
    dChar_encode, dBool_encode, dString_encode, dInt_encode, bind,
    Except.bind, Functor.map, Except.map, pure, Except.pure]

lemma dEntriesN_encode (l : List Entry) (r : List Nat) :
    dEntriesN l.length (encodeEntriesAux l ++ r) = Except.ok (l, r) := by
  induction l with
  | nil => simp [dEntriesN, encodeEntriesAux]
  | cons e rest ih =>
    simp [dEntriesN, encodeEntriesAux, List.append_assoc, dEntry_encode, ih]

lemma decodeEntries_encodeEntries (l : List Entry) :
    decodeEntries (encodeEntries l) = Except.ok l := by
  have h := dEntriesN_encode l []
  simp only [List.append_nil] at h
  simp [decodeEntries, encodeEntries, dNat, h, bind, Except.bind, pure,
    Except.pure]

/-- C4: for every entry list E and every filter F, decoding the binary
serialization of the filtered list reproduces it exactly field-for-field:
`decode(encode(filter(E, F))) == filter(E, F)`, preserving entry order and
every field value. -/
theorem claim_C4_roundtrip (E : List Entry) (F : CongkitFilter) :
    decodeEntries (encodeEntries (E.filter (fun e => apply_filters e F))) =
      Except.ok (E.filter (fun e => apply_filters e F)) :=
  decodeEntries_encodeEntries _

lemma mem_hmInsert {κ β : Type} [DecidableEq κ] {m : List (κ × β)}
    {kv p : κ × β} (hp : p ∈ hmInsert m kv) : p ∈ m ∨ p = kv := by
  induction m with
  | nil =>
    simp [hmInsert] at hp
    exact Or.inr hp
  | cons kv0 rest ih =>
    obtain ⟨k, v⟩ := kv0
    simp only [hmInsert] at hp
    by_cases hk : k = kv.1
    · rw [if_pos hk] at hp
      rcases List.mem_cons.mp hp with h | h
      · exact Or.inr h
      · exact Or.inl (List.mem_cons_of_mem _ h)
    · rw [if_neg hk] at hp
      rcases List.mem_cons.mp hp with h | h
      · exact Or.inl (h ▸ List.mem_cons_self _ _)
      · rcases ih h with h2 | h2
        · exact Or.inl (List.mem_cons_of_mem _ h2)
        · exact Or.inr h2

lemma mem_foldl_hmInsert {κ β : Type} [DecidableEq κ] {l : List (κ × β)}
    {acc : List (κ × β)} {p : κ × β} (hp : p ∈ l.foldl hmInsert acc) :
    p ∈ acc ∨ p ∈ l := by
  induction l generalizing acc with
  | nil => exact Or.inl hp
  | cons kv rest ih =>
    simp only [List.foldl_cons] at hp
    rcases ih hp with h | h
    · rcases mem_hmInsert h with h2 | h2
      · exact Or.inl h2
      · exact Or.inr (h2 ▸ List.mem_cons_self _ _)
    · exact Or.inr (List.mem_cons_of_mem _ h)

lemma mem_hmOfList {κ β : Type} [DecidableEq κ] {l : List (κ × β)}
    {p : κ × β} (hp : p ∈ hmOfList l) : p ∈ l := by
  unfold hmOfList at hp
  rcases mem_foldl_hmInsert hp with h | h
  · simp at h
  · exact h

lemma mem_from_entry_vec {l : List Entry} {v : CongkitVersion}
    {p : Char × Entry} (hp : p ∈ (CongkitDB.from_entry_vec l v).entries) :
    ∃ e ∈ l, p = (e.traditional, setCode v e) := by
  have h := mem_hmOfList hp
  obtain ⟨e, he, heq⟩ := List.mem_map.mp h
  exact ⟨e, he, heq.symm⟩

lemma apply_filters_setCode (v : CongkitVersion) (e : Entry)
    (f : CongkitFilter) : apply_filters (setCode v e) f = apply_filters e f := by
  cases v <;> rfl

lemma setCode_v3 (v : CongkitVersion) (e : Entry) : (setCode v e).v3 = e.v3 := by
  cases v <;> rfl

lemma setCode_v5 (v : CongkitVersion) (e : Entry) : (setCode v e).v5 = e.v5 := by
  cases v <;> rfl

lemma setCode_code (v : CongkitVersion) (e : Entry) :
    (setCode v e).code = (match v with
                          | CongkitVersion.V3 => e.v3
                          | CongkitVersion.V5 => e.v5) := by
  cases v <;> rfl

lemma to_entries_pass {txt : String} {f : CongkitFilter} {l : List Entry}
    (h : to_entries txt f = Except.ok l) :
    ∀ e ∈ l, apply_filters e f = true := by
  unfold to_entries at h
  cases hp : parsedEntries txt with
  | error err => rw [hp] at h; exact absurd h (by simp [Except.map])
  | ok lp =>
    rw [hp] at h
    simp only [Except.map] at h
    cases h
    intro e he
    exact (List.mem_filter.mp he).2

lemma from_txt_entries_pass {txt : String} {v : CongkitVersion}
    {f : CongkitFilter} {db : CongkitDB}
    (h : CongkitDB.from_txt txt v f = Except.ok db) :
    ∀ p ∈ db.entries, apply_filters p.2 f = true := by
  unfold CongkitDB.from_txt at h
  cases hte : to_entries txt f with
  | error err => rw [hte] at h; exact absurd h (by simp [Except.map])
  | ok l =>
    rw [hte] at h
    simp only [Except.map] at h
    cases h
    intro p hp
    obtain ⟨e, he, heq⟩ := mem_from_entry_vec hp
    rw [heq]
    rw [apply_filters_setCode]
    exact to_entries_pass hte e he

lemma from_data_entries_pass {data : List Nat} {v : CongkitVersion}
    {f : CongkitFilter} {db : CongkitDB}
    (h : CongkitDB.from_data data v f = Except.ok db) :
    ∀ p ∈ db.entries, apply_filters p.2 f = true := by
  unfold CongkitDB.from_data at h
  cases hd : decodeEntries data with
  | error err => rw [hd] at h; exact absurd h (by simp [Except.map])
  | ok es =>
    rw [hd] at h
    simp only [Except.map] at h
    cases h
    intro p hp
    obtain ⟨e, he, heq⟩ := mem_from_entry_vec hp
    rw [heq]
    rw [apply_filters_setCode]
    exact (List.mem_filter.mp he).2

/-- C5: every entry stored in a built `CongkitDB`'s character-to-Entry
mapping (built from text or from binary) satisfies the filter the table
was built with, where the predicate is the OR over the nine
(entry flag, filter bit) pairs — the definition of `apply_filters`. -/
theorem claim_C5_invariant :
    (∀ (txt : String) (v : CongkitVersion) (f : CongkitFilter)
       (db : CongkitDB), CongkitDB.from_txt txt v f = Except.ok db →
       ∀ p ∈ db.entries, apply_filters p.2 f = true) ∧
    (∀ (data : List Nat) (v : CongkitVersion) (f : CongkitFilter)
       (db : CongkitDB), CongkitDB.from_data data v f = Except.ok db →
       ∀ p ∈ db.entries, apply_filters p.2 f = true) :=
  ⟨fun _ _ _ _ h => from_txt_entries_pass h,
   fun _ _ _ _ h => from_data_entries_pass h⟩

/-- A placeholder entry for `getD` in concrete witnesses. -/
def dummyEntry : Entry :=
  { traditional := 'a', simplified := 'a', chinese := false, big5 := false,
    hkscs := false, taiwanese := false, kanji := false, hiragana := false,
    katakana := false, punctuation := false, misc := false, v3 := "",
    v5 := "", code := "", shortcut := "", order := 0 }

/-- The spec's §8 end-to-end example line. -/
def txtW0 : String := "我 我 1 1 1 1 0 0 0 0 0 onf onf onf 5"

/-- The table built from `txtW0` with V3 and the chinese filter. -/
def dbW0 : CongkitDB :=
  (CongkitDB.from_txt txtW0 CongkitVersion.V3
    CongkitFilter.chineseFilter).toOption.getD CongkitDB.defaultDB

/-- The single mapping pair of `dbW0`. -/
def pairW0 : Char × Entry := dbW0.entries.getD 0 ('a', dummyEntry)

theorem claim_C5_witness :
    apply_filters pairW0.2 CongkitFilter.chineseFilter = true :=
  claim_C5_invariant.1 txtW0 CongkitVersion.V3 CongkitFilter.chineseFilter
    dbW0 (by decide) pairW0 (by decide)

lemma hmGet_mem {κ β : Type} [DecidableEq κ] {m : List (κ × β)} {q : κ}
    {v : β} (h : hmGet m q = some v) : (q, v) ∈ m := by
  unfold hmGet at h
  cases hf : m.find? (fun p => p.1 == q) with
  | none => rw [hf] at h; simp at h
  | some p =>
    rw [hf] at h
    simp only [Option.map_some'] at h
    have hp := List.mem_of_find?_eq_some hf
    have hq := List.find?_some hf
    have hq2 : p.1 = q := by simpa using hq
    have : p = (q, v) := by
      obtain ⟨p1, p2⟩ := p
      simp only at hq2 h
      rw [hq2, Option.some.inj h]
    exact this ▸ hp

/-- C7: for every character present in a built table, `get_code` returns
the stored entry's `code`, which is the `v3` field when built with V3 and
the `v5` field when built with V5 — the active code is bound once at
construction from the requested version (also recorded in `db.version`). -/
theorem claim_C7_version_binding :
    (∀ (txt : String) (v : CongkitVersion) (f : CongkitFilter)
       (db : CongkitDB), CongkitDB.from_txt txt v f = Except.ok db →
       db.version = v ∧
       ∀ (c : Char) (e : Entry), hmGet db.entries c = some e →
         db.get_code c = some e.code ∧
         e.code = (match v with
                   | CongkitVersion.V3 => e.v3
                   | CongkitVersion.V5 => e.v5)) ∧
    (∀ (data : List Nat) (v : CongkitVersion) (f : CongkitFilter)
       (db : CongkitDB), CongkitDB.from_data data v f = Except.ok db →
       db.version = v ∧
       ∀ (c : Char) (e : Entry), hmGet db.entries c = some e →
         db.get_code c = some e.code ∧
         e.code = (match v with
                   | CongkitVersion.V3 => e.v3
                   | CongkitVersion.V5 => e.v5)) := by
  constructor
  · intro txt v f db h
    unfold CongkitDB.from_txt at h
    cases hte : to_entries txt f with
    | error err => rw [hte] at h; exact absurd h (by simp [Except.map])
    | ok l =>
      rw [hte] at h
      simp only [Except.map] at h
      cases h
      refine ⟨rfl, fun c e he => ?_⟩
      refine ⟨by simp [CongkitDB.get_code, he], ?_⟩
      obtain ⟨e0, _, heq⟩ := mem_from_entry_vec (hmGet_mem he)
      have he2 : e = setCode v e0 := congrArg Prod.snd heq
      rw [he2, setCode_code]
      cases v
      · rw [setCode_v3]
      · rw [setCode_v5]
  · intro data v f db h
    unfold CongkitDB.from_data at h
    cases hd : decodeEntries data with
    | error err => rw [hd] at h; exact absurd h (by simp [Except.map])
    | ok es =>
      rw [hd] at h
      simp only [Except.map] at h
      cases h
      refine ⟨rfl, fun c e he => ?_⟩
      refine ⟨by simp [CongkitDB.get_code, he], ?_⟩
      obtain ⟨e0, _, heq⟩ := mem_from_entry_vec (hmGet_mem he)
      have he2 : e = setCode v e0 := congrArg Prod.snd heq
      rw [he2, setCode_code]
      cases v
      · rw [setCode_v3]
      · rw [setCode_v5]

theorem claim_C7_witness :
    dbW0.get_code '我' = some pairW0.2.code ∧
    pairW0.2.code = pairW0.2.v3 :=
  (claim_C7_version_binding.1 txtW0 CongkitVersion.V3
    CongkitFilter.chineseFilter dbW0 (by decide)).2 '我' pairW0.2 (by decide)

/-- The nine category flags of an entry, all false. -/
def allFlagsFalse (e : Entry) : Prop :=
  e.chinese = false ∧ e.big5 = false ∧ e.hkscs = false ∧
  e.taiwanese = false ∧ e.kanji = false ∧ e.hiragana = false ∧
  e.katakana = false ∧ e.punctuation = false ∧ e.misc = false

/-- C10: an entry whose nine category flags are all false is rejected by
every filter, `CongkitFilter.all` included, so it is never in a
`to_entries` result nor in any built table's mapping. -/
theorem claim_C10_all_flags_false (e : Entry) (h : allFlagsFalse e) :
    (∀ f : CongkitFilter, apply_filters e f = false) ∧
    (∀ (txt : String) (f : CongkitFilter) (l : List Entry),
       to_entries txt f = Except.ok l → e ∉ l) ∧
    (∀ (txt : String) (v : CongkitVersion) (f : CongkitFilter)
       (db : CongkitDB), CongkitDB.from_txt txt v f = Except.ok db →
       ∀ c : Char, (c, e) ∉ db.entries) ∧
    (∀ (data : List Nat) (v : CongkitVersion) (f : CongkitFilter)
       (db : CongkitDB), CongkitDB.from_data data v f = Except.ok db →
       ∀ c : Char, (c, e) ∉ db.entries) := by
  obtain ⟨h1, h2, h3, h4, h5, h6, h7, h8, h9⟩ := h
  have hfalse : ∀ f : CongkitFilter, apply_filters e f = false := by
    intro f
    simp [apply_filters, h1, h2, h3, h4, h5, h6, h7, h8, h9]
  refine ⟨hfalse, ?_, ?_, ?_⟩
  · intro txt f l hok hmem
    have := to_entries_pass hok e hmem
    rw [hfalse f] at this
    exact absurd this (by simp)
  · intro txt v f db hok c hmem
    have := from_txt_entries_pass hok (c, e) hmem
    rw [hfalse f] at this
    exact absurd this (by simp)
  · intro data v f db hok c hmem
    have := from_data_entries_pass hok (c, e) hmem
    rw [hfalse f] at this
    exact absurd this (by simp)

theorem claim_C10_witness :
    apply_filters dummyEntry CongkitFilter.all = false :=
  (claim_C10_all_flags_false dummyEntry
    ⟨rfl, rfl, rfl, rfl, rfl, rfl, rfl, rfl, rfl⟩).1 CongkitFilter.all

lemma find?_proj_eq {α κ : Type} [DecidableEq κ] {l : List α} {f : α → κ}
    (hnd : (l.map f).Nodup) {x : α} (hx : x ∈ l) :
    l.find? (fun y => f y == f x) = some x := by
  induction l with
  | nil => simp at hx
  | cons a rest ih =>
    simp only [List.map_cons, List.nodup_cons] at hnd
    rcases List.mem_cons.mp hx with h | h
    · subst h
      simp [List.find?]
    · have hne : (f a == f x) = false := by
        rw [beq_eq_false_iff_ne]
        intro heq
        exact hnd.1 (heq ▸ List.mem_map_of_mem f h)
      rw [List.find?_cons, hne]
      exact ih hnd.2 h

lemma get_radical_iff_mem (r k : Char) :
    CongkitDB.defaultDB.get_radical k = some r ↔ (r, k) ∈ radicalPairs := by
  constructor
  · intro h
    unfold CongkitDB.get_radical CongkitDB.defaultDB at h
    cases hf : radicalPairs.find? (fun p => p.2 == k) with
    | none => rw [hf] at h; simp at h
    | some p =>
      rw [hf] at h
      simp only [Option.map_some'] at h
      have hp := List.mem_of_find?_eq_some hf
      have hk : p.2 = k := by simpa using List.find?_some hf
      have : p = (r, k) := by
        obtain ⟨p1, p2⟩ := p
        simp only at hk h
        rw [hk, Option.some.inj h]
      exact this ▸ hp
  · intro h
    have hnd : (radicalPairs.map Prod.snd).Nodup := by decide
    have := find?_proj_eq (f := Prod.snd) hnd h
    unfold CongkitDB.get_radical CongkitDB.defaultDB
    simp only at this ⊢
    rw [this]
    rfl

lemma get_key_iff_mem (r k : Char) :
    CongkitDB.defaultDB.get_key r = some k ↔ (r, k) ∈ radicalPairs := by
  constructor
  · intro h
    unfold CongkitDB.get_key CongkitDB.defaultDB at h
    cases hf : radicalPairs.find? (fun p => p.1 == r) with
    | none => rw [hf] at h; simp at h
    | some p =>
      rw [hf] at h
      simp only [Option.map_some'] at h
      have hp := List.mem_of_find?_eq_some hf
      have hr : p.1 = r := by simpa using List.find?_some hf
      have : p = (r, k) := by
        obtain ⟨p1, p2⟩ := p
        simp only at hr h
        rw [hr, Option.some.inj h]
      exact this ▸ hp
  · intro h
    have hnd : (radicalPairs.map Prod.fst).Nodup := by decide
    have := find?_proj_eq (f := Prod.fst) hnd h
    unfold CongkitDB.get_key CongkitDB.defaultDB
    simp only at this ⊢
    rw [this]
    rfl

/-- C8: the radical-to-key mapping is a total bijection over exactly 25
pairs, independent of the loaded table: `get_radical k = some r` iff
`get_key r = some k`, and both return `none` outside the 25 symbols. -/
theorem claim_C8_radical_bijection :
    radicalPairs.length = 25 ∧
    (∀ r k : Char, CongkitDB.defaultDB.get_radical k = some r ↔
      CongkitDB.defaultDB.get_key r = some k) ∧
    (∀ k : Char, k ∉ radicalPairs.map Prod.snd →
      CongkitDB.defaultDB.get_radical k = none) ∧
    (∀ r : Char, r ∉ radicalPairs.map Prod.fst →
      CongkitDB.defaultDB.get_key r = none) ∧
    (∀ (l : List Entry) (v : CongkitVersion),
      (CongkitDB.from_entry_vec l v).radicals = radicalPairs) := by
  refine ⟨by decide, ?_, ?_, ?_, fun l v => rfl⟩
  · intro r k
    rw [get_radical_iff_mem, get_key_iff_mem]
  · intro k hk
    unfold CongkitDB.get_radical CongkitDB.defaultDB
    simp only
    rw [List.find?_eq_none.mpr]
    · rfl
    · intro p hp
      simp only [beq_iff_eq]
      intro heq
      exact hk (heq ▸ List.mem_map_of_mem Prod.snd hp)
  · intro r hr
    unfold CongkitDB.get_key CongkitDB.defaultDB
    simp only
    rw [List.find?_eq_none.mpr]
    · rfl
    · intro p hp
      simp only [beq_iff_eq]
      intro heq
      exact hr (heq ▸ List.mem_map_of_mem Prod.fst hp)

theorem claim_C8_witness :
    CongkitDB.defaultDB.get_radical 'z' = none :=
  claim_C8_radical_bijection.2.2.1 'z' (by decide)

/-- C9: for every pattern on which `get_characters` succeeds, the returned
glyphs are the `traditional` characters of the matching entries listed in
ascending (non-decreasing) `order`: the underlying entry list is sorted by
`entryLE` and the output is exactly its image under `Entry.traditional`.
In particular this holds for the whole-table pattern `"*"`. -/
theorem claim_C9_sorted_output (db : CongkitDB) (p : String)
    (ts : List Token) (h : compilePattern p = Except.ok ts) :
    List.Sorted entryLE (matchingSorted db ts) ∧
    CongkitDB.get_characters db p =
      Except.ok ((matchingSorted db ts).map Entry.traditional) := by
  refine ⟨List.sorted_insertionSort entryLE _, ?_⟩
  unfold CongkitDB.get_characters
  rw [h]
  rfl

theorem claim_C9_witness :
    List.Sorted entryLE (matchingSorted dbW0 [Token.dotPlus]) ∧
    CongkitDB.get_characters dbW0 "*" =
      Except.ok ((matchingSorted dbW0 [Token.dotPlus]).map Entry.traditional) :=
  claim_C9_sorted_output dbW0 "*" [Token.dotPlus] (by decide)

/-- A pattern character that the regex engine treats as a plain literal:
neither a metacharacter nor `.` nor `+`. -/
def plainChar (c : Char) : Bool :=
  !(c ∈ regexMeta || c = '.' || c = '+')

/-- A pattern character that is either a plain literal or the `*` wildcard. -/
def plainOrStar (c : Char) : Bool :=
  plainChar c || c = '*'

/-- The tokens a plain-or-star pattern compiles to. -/
def tokensOf (p : List Char) : List Token :=
  p.map (fun c => if c = '*' then Token.dotPlus else Token.lit c)

/-- Defined from the spec's words, for the refinement comparison of C2:
anchored exact-match template where every literal pattern character must
match the subject character exactly and `*` matches one or more arbitrary
characters; no partial/substring matches. -/
def specMatch : List Char → List Char → Bool
  | [], [] => true
  | _ :: _, [] => false
  | [], _ :: _ => false
  | c :: ps, x :: xs =>
    if c = '*' then specMatch ps xs || specMatch (c :: ps) xs
    else (c == x) && specMatch ps xs

lemma replaceStar_eq_nil_iff (p : List Char) : replaceStar p = [] ↔ p = [] := by
  cases p with
  | nil => exact ⟨fun _ => rfl, fun _ => rfl⟩
  | cons c rest =>
    refine ⟨fun h => ?_, fun h => absurd h (List.cons_ne_nil c rest)⟩
    exfalso
    rw [replaceStar] at h
    by_cases hc : c = '*'
    · rw [if_pos hc] at h
      exact absurd h (by simp)
    · rw [if_neg hc] at h
      exact absurd h (by simp)

lemma tokensOf_cons_star (ps : List Char) :
    tokensOf ('*' :: ps) = Token.dotPlus :: tokensOf ps := by
  simp [tokensOf]

lemma tokensOf_cons_plain {c : Char} (hstar : c ≠ '*') (ps : List Char) :
    tokensOf (c :: ps) = Token.lit c :: tokensOf ps := by
  simp [tokensOf, hstar]

lemma compileTokens_dotPlus (X : List Char) :
    compileTokens ('.' :: '+' :: X) =
      (compileTokens X).map (fun ts => Token.dotPlus :: ts) := by
  simp [compileTokens]

lemma compileTokens_lit_nil {c : Char} (hdot : c ≠ '.') (hplus : c ≠ '+')
    (hmeta : c ∉ regexMeta) :
    compileTokens [c] = Except.ok [Token.lit c] := by
  simp [compileTokens, hdot, hplus, hmeta, Except.map]

lemma compileTokens_lit_cons {c d : Char} (X : List Char) (hdot : c ≠ '.')
    (hplus : c ≠ '+') (hmeta : c ∉ regexMeta) (hd : d ≠ '+') :
    compileTokens (c :: d :: X) =
      (compileTokens (d :: X)).map (fun ts => Token.lit c :: ts) := by
  simp [compileTokens, hdot, hplus, hmeta, hd]

lemma plainChar_spec {c : Char} (h : plainChar c = true) :
    c ∉ regexMeta ∧ c ≠ '.' ∧ c ≠ '+' := by
  simp only [plainChar, Bool.not_or, Bool.and_eq_true, Bool.not_eq_true',
    decide_eq_false_iff_not] at h
  exact ⟨h.1.1, h.1.2, h.2⟩

lemma plainOrStar_plain {c : Char} (h : plainOrStar c = true)
    (hstar : c ≠ '*') : plainChar c = true := by
  simp only [plainOrStar, Bool.or_eq_true, decide_eq_true_eq] at h
  rcases h with h | h
  · exact h
  · exact absurd h hstar

lemma head_replaceStar_ne_plus {rest : List Char}
    (h : ∀ c ∈ rest, plainOrStar c = true) {d : Char} {X : List Char}
    (heq : replaceStar rest = d :: X) : d ≠ '+' := by
  cases rest with
  | nil => simp [replaceStar] at heq
  | cons c r =>
    have hc := h c (List.mem_cons_self _ _)
    rw [replaceStar] at heq
    by_cases hstar : c = '*'
    · rw [if_pos hstar] at heq
      simp only [List.cons_append] at heq
      have hd : d = '.' := ((List.cons.injEq _ _ _ _).mp heq).1.symm
      rw [hd]
      decide
    · rw [if_neg hstar] at heq
      simp only [List.cons_append, List.nil_append] at heq
      have hd : d = c := ((List.cons.injEq _ _ _ _).mp heq).1.symm
      rw [hd]
      exact (plainChar_spec (plainOrStar_plain hc hstar)).2.2

lemma compile_replaceStar (p : List Char)
    (hp : ∀ c ∈ p, plainOrStar c = true) :
    compileTokens (replaceStar p) = Except.ok (tokensOf p) := by
  induction p with
  | nil => rfl
  | cons c rest ih =>
    have hc := hp c (List.mem_cons_self _ _)
    have hrest : ∀ x ∈ rest, plainOrStar x = true :=
      fun x hx => hp x (List.mem_cons_of_mem _ hx)
    by_cases hstar : c = '*'
    · subst hstar
      rw [show replaceStar ('*' :: rest) = '.' :: '+' :: replaceStar rest by
        rw [replaceStar, if_pos rfl]; rfl]
      rw [compileTokens_dotPlus, ih hrest, tokensOf_cons_star]
      rfl
    · obtain ⟨hmeta, hdot, hplus⟩ :=
        plainChar_spec (plainOrStar_plain hc hstar)
      rw [show replaceStar (c :: rest) = c :: replaceStar rest by
        rw [replaceStar, if_neg hstar]; rfl]
      cases hX : replaceStar rest with
      | nil =>
        have hnil : rest = [] := (replaceStar_eq_nil_iff rest).mp hX
        subst hnil
        show compileTokens [c] = Except.ok (tokensOf [c])
        rw [compileTokens_lit_nil hdot hplus hmeta, tokensOf_cons_plain hstar]
        rfl
      | cons d X =>
        have hd : d ≠ '+' := head_replaceStar_ne_plus hrest hX
        rw [compileTokens_lit_cons X hdot hplus hmeta hd, ← hX, ih hrest,
          tokensOf_cons_plain hstar]
        rfl

lemma tokensMatch_cons_nil (t : Token) (ts : List Token) :
    tokensMatch (t :: ts) [] = false := by
  cases t <;> rfl

lemma specMatch_cons_star (ps : List Char) (x : Char) (xs : List Char) :
    specMatch ('*' :: ps) (x :: xs) =
      (specMatch ps xs || specMatch ('*' :: ps) xs) := by
  simp [specMatch]

lemma specMatch_cons_plain {c : Char} (hstar : c ≠ '*') (ps : List Char)
    (x : Char) (xs : List Char) :
    specMatch (c :: ps) (x :: xs) = ((c == x) && specMatch ps xs) := by
  simp [specMatch, hstar]

lemma tokensMatch_tokensOf (s p : List Char)
    (hp : ∀ c ∈ p, plainOrStar c = true) (hs : '\n' ∉ s) :
    tokensMatch (tokensOf p) s = specMatch p s := by
  induction s generalizing p with
  | nil =>
    cases p with
    | nil => rfl
    | cons c ps =>
      rw [show tokensOf (c :: ps) =
        (if c = '*' then Token.dotPlus else Token.lit c) :: tokensOf ps
        from rfl]
      rw [tokensMatch_cons_nil]
      rfl
  | cons x xs ih =>
    have hxs : '\n' ∉ xs := fun hmem => hs (List.mem_cons_of_mem _ hmem)
    have hx : x ≠ '\n' := fun heq => hs (heq ▸ List.mem_cons_self _ _)
    cases p with
    | nil => rfl
    | cons c ps =>
      have hps : ∀ y ∈ ps, plainOrStar y = true :=
        fun y hy => hp y (List.mem_cons_of_mem _ hy)
      by_cases hstar : c = '*'
      · subst hstar
        rw [tokensOf_cons_star, specMatch_cons_star]
        rw [show tokensMatch (Token.dotPlus :: tokensOf ps) (x :: xs) =
          (x != '\n' && (tokensMatch (tokensOf ps) xs ||
            tokensMatch (Token.dotPlus :: tokensOf ps) xs)) from rfl]
        rw [show (x != '\n') = true by simpa using hx, Bool.true_and]
        rw [ih ps hps hxs]
        rw [← tokensOf_cons_star, ih ('*' :: ps) hp hxs]
      · rw [tokensOf_cons_plain hstar, specMatch_cons_plain hstar]
        rw [show tokensMatch (Token.lit c :: tokensOf ps) (x :: xs) =
          (c == x && tokensMatch (tokensOf ps) xs) from rfl]
        rw [ih ps hps hxs]

/-- Defined from the spec's words: `get_characters` as the spec describes
it — filter the table by the exact-match template `specMatch`, sort by
`order`, return the `traditional` glyphs. -/
def specGetCharacters (db : CongkitDB) (p : String) : List Char :=
  (List.insertionSort entryLE
    ((hmValues db.entries).filter
      (fun e => specMatch p.data e.code.data))).map Entry.traditional

/-- C2 (amended): for patterns whose characters are all plain literals or
`*` (no regex metacharacters), and tables whose codes contain no newline,
`get_characters` implements exactly the spec's anchored template
semantics: literals match exactly, `*` matches one or more characters,
no substring matches. -/
theorem claim_C2_wildcard_semantics (db : CongkitDB) (p : String)
    (hp : ∀ c ∈ p.data, plainOrStar c = true)
    (hdb : ∀ e ∈ hmValues db.entries, '\n' ∉ e.code.data) :
    CongkitDB.get_characters db p = Except.ok (specGetCharacters db p) := by
  unfold CongkitDB.get_characters compilePattern
  rw [compile_replaceStar p.data hp]
  have hfil : (hmValues db.entries).filter
      (fun e => tokensMatch (tokensOf p.data) e.code.data) =
      (hmValues db.entries).filter (fun e => specMatch p.data e.code.data) :=
    List.filter_congr (fun e he => tokensMatch_tokensOf _ _ hp (hdb e he))
  unfold matchingSorted specGetCharacters
  simp only [Except.map]
  rw [hfil]

/-- A one-entry table whose (V3) code is `"q"`. -/
def txtQ : String := "我 我 1 1 1 1 0 0 0 0 0 q q q 1"

/-- C2 as stated is false: matching is not an exact-match template for
every pattern — a regex metacharacter keeps its regex meaning.  The
pattern `"."` matches the code `"q"` (the built table returns `['我']`)
even though its literal character `'.'` differs from `'q'`, and the
spec's template semantics rejects that match. -/
theorem claim_C2_counterexample :
    (CongkitDB.from_txt txtQ CongkitVersion.V3 CongkitFilter.all).map
      (fun db => db.get_characters ".") = Except.ok (Except.ok ['我']) ∧
    specMatch ".".data "q".data = false := by
  constructor
  · decide
  · decide

/-- A one-entry table whose (V3) code is `"hqiv"`. -/
def txtH : String := "寫 写 1 1 1 1 0 0 0 0 0 hqiv hqiv hqi 9"

/-- The table built from `txtH` with V3 and the all filter. -/
def dbH : CongkitDB :=
  (CongkitDB.from_txt txtH CongkitVersion.V3
    CongkitFilter.all).toOption.getD CongkitDB.defaultDB

theorem claim_C2_witness :
    CongkitDB.get_characters dbH "hqi*" =
      Except.ok (specGetCharacters dbH "hqi*") :=
  claim_C2_wildcard_semantics dbH "hqi*" (by decide) (by decide)

/-- The line shapes on which the Rust parser actually panics: fewer than
15 space-separated fields, an empty first or second field (no character to
take), or an order field that does not parse as `i32`. -/
def lineMalformed (line : List Char) : Bool :=
  let fs := splitChar ' ' line
  decide (fs.length < 15) || (fs.getD 0 []).isEmpty
    || (fs.getD 1 []).isEmpty || (parseI32 (fs.getD 14 [])).isNone

lemma parseFields_none_of_short {fs : List (List Char)}
    (h : fs.length < 15) : parseFields fs = none := by
  rcases fs with _ | ⟨f0, fs⟩; · rfl
  rcases fs with _ | ⟨f1, fs⟩; · rfl
  rcases fs with _ | ⟨f2, fs⟩; · rfl
  rcases fs with _ | ⟨f3, fs⟩; · rfl
  rcases fs with _ | ⟨f4, fs⟩; · rfl
  rcases fs with _ | ⟨f5, fs⟩; · rfl
  rcases fs with _ | ⟨f6, fs⟩; · rfl
  rcases fs with _ | ⟨f7, fs⟩; · rfl
  rcases fs with _ | ⟨f8, fs⟩; · rfl
  rcases fs with _ | ⟨f9, fs⟩; · rfl
  rcases fs with _ | ⟨f10, fs⟩; · rfl
  rcases fs with _ | ⟨f11, fs⟩; · rfl
  rcases fs with _ | ⟨f12, fs⟩; · rfl
  rcases fs with _ | ⟨f13, fs⟩; · rfl
  rcases fs with _ | ⟨f14, fs⟩; · rfl
  simp only [List.length_cons] at h
  omega

lemma parseFields_eq_none {fs : List (List Char)}
    (h : fs.length < 15 ∨ (fs.getD 0 []).isEmpty = true ∨
         (fs.getD 1 []).isEmpty = true ∨
         (parseI32 (fs.getD 14 [])).isNone = true) :
    parseFields fs = none := by
  by_cases hlen : fs.length < 15
  · exact parseFields_none_of_short hlen
  · rcases fs with _ | ⟨f0, fs⟩; · exact absurd (by simp) hlen
    rcases fs with _ | ⟨f1, fs⟩; · exact absurd (by simp) hlen
    rcases fs with _ | ⟨f2, fs⟩; · exact absurd (by simp) hlen
    rcases fs with _ | ⟨f3, fs⟩; · exact absurd (by simp) hlen
    rcases fs with _ | ⟨f4, fs⟩; · exact absurd (by simp) hlen
    rcases fs with _ | ⟨f5, fs⟩; · exact absurd (by simp) hlen
    rcases fs with _ | ⟨f6, fs⟩; · exact absurd (by simp) hlen
    rcases fs with _ | ⟨f7, fs⟩; · exact absurd (by simp) hlen
    rcases fs with _ | ⟨f8, fs⟩; · exact absurd (by simp) hlen
    rcases fs with _ | ⟨f9, fs⟩; · exact absurd (by simp) hlen
    rcases fs with _ | ⟨f10, fs⟩; · exact absurd (by simp) hlen
    rcases fs with _ | ⟨f11, fs⟩; · exact absurd (by simp) hlen
    rcases fs with _ | ⟨f12, fs⟩; · exact absurd (by simp) hlen
    rcases fs with _ | ⟨f13, fs⟩; · exact absurd (by simp) hlen
    rcases fs with _ | ⟨f14, fs⟩; · exact absurd (by simp) hlen
    simp only [List.getD_cons_zero, List.getD_cons_succ,
      List.length_cons] at h
    rcases h with h | h | h | h
    · omega
    · rw [List.isEmpty_iff.mp h]
      simp [parseFields]
    · cases hf0 : f0.head? <;>
        simp [parseFields, hf0, List.isEmpty_iff.mp h]
    · cases hf0 : f0.head? <;> cases hf1 : f1.head? <;>
        simp [parseFields, hf0, hf1, Option.isNone_iff_eq_none.mp h]

lemma parseLine_error {line : List Char} (h : lineMalformed line = true) :
    parseLine line = Except.error ParseError.malformedLine := by
  simp only [lineMalformed, Bool.or_eq_true, decide_eq_true_eq] at h
  unfold parseLine
  rw [parseFields_eq_none (by tauto)]

lemma mapME_error_of_mem {α β ε : Type} {f : α → Except ε β} {l : List α}
    {x : α} (hx : x ∈ l) {e : ε} (hf : f x = Except.error e) :
    ∃ e2, mapME f l = Except.error e2 := by
  induction l with
  | nil => simp at hx
  | cons y ys ih =>
    cases hfy : f y with
    | error e3 => exact ⟨e3, by simp [mapME, hfy]⟩
    | ok b =>
      rcases List.mem_cons.mp hx with h | h
      · rw [h] at hf
        rw [hf] at hfy
        exact absurd hfy (by simp)
      · obtain ⟨e2, he2⟩ := ih h
        exact ⟨e2, by simp [mapME, hfy, he2]⟩

/-- C1 (amended): a non-skipped line with fewer than 15 fields, an empty
first or second field, or an order field that does not parse as `i32`
makes the whole text-path construction fail (a panic in the Rust source,
surfaced here as a `ParseError`), with no partial-line recovery — but a
line with MORE than 15 fields is not an error (the extra fields are
ignored), and a multi-character character field is truncated to its first
character rather than rejected. -/
theorem claim_C1_malformed_line (txt : String) (F : CongkitFilter)
    (line : List Char) (hmem : line ∈ relevantLines txt)
    (hbad : lineMalformed line = true) :
    (∃ err, to_entries txt F = Except.error err) ∧
    (∀ v : CongkitVersion,
      ∃ err, CongkitDB.from_txt txt v F = Except.error err) := by
  have hpl := parseLine_error hbad
  obtain ⟨e2, he2⟩ := mapME_error_of_mem hmem hpl
  have h1 : to_entries txt F = Except.error e2 := by
    unfold to_entries parsedEntries
    rw [he2]
    rfl
  refine ⟨⟨e2, h1⟩, fun v => ⟨e2, ?_⟩⟩
  unfold CongkitDB.from_txt
  rw [h1]
  rfl

/-- A line with 16 space-separated fields. -/
def txt16 : String := "我 我 1 1 1 1 0 0 0 0 0 onf onf onf 5 x"

/-- A line whose first field has two characters. -/
def txtWide : String := "我我 我 1 1 1 1 0 0 0 0 0 onf onf onf 5"

/-- C1 as stated is false: "wrong field count" and "unparsable character"
are not always fatal.  A line with 16 fields (not 15) builds successfully
— the extra field is ignored — and a line whose character field holds two
characters also builds successfully (truncated), so not every malformed
line is a construction error. -/
theorem claim_C1_counterexample :
    (splitChar ' ' txt16.data).length = 16 ∧
    (to_entries txt16 CongkitFilter.all).toOption.isSome = true ∧
    (splitChar ' ' txtWide.data).getD 0 [] = ['我', '我'] ∧
    (to_entries txtWide CongkitFilter.all).toOption.isSome = true := by
  refine ⟨by decide, by decide, by decide, by decide⟩

theorem claim_C1_witness :
    (∃ err, to_entries "x" CongkitFilter.all = Except.error err) ∧
    (∀ v : CongkitVersion,
      ∃ err, CongkitDB.from_txt "x" v CongkitFilter.all = Except.error err) :=
  claim_C1_malformed_line "x" CongkitFilter.all ['x'] (by decide) (by decide)

lemma apply_filters_all_of {e : Entry} {F : CongkitFilter}
    (h : apply_filters e F = true) :
    apply_filters e CongkitFilter.all = true := by
  simp only [apply_filters, Bool.or_eq_true, Bool.and_eq_true] at h ⊢
  simp only [CongkitFilter.all, and_true]
  tauto

lemma hmInsert_append {κ β : Type} [DecidableEq κ] {m : List (κ × β)}
    {kv : κ × β} (h : kv.1 ∉ m.map Prod.fst) : hmInsert m kv = m ++ [kv] := by
  induction m with
  | nil => rfl
  | cons kv0 rest ih =>
    obtain ⟨k, v⟩ := kv0
    simp only [List.map_cons, List.mem_cons] at h
    push_neg at h
    rw [show hmInsert ((k, v) :: rest) kv =
      if k = kv.1 then kv :: rest else (k, v) :: hmInsert rest kv from rfl]
    rw [if_neg (fun heq => h.1 heq.symm), ih h.2]
    rfl

lemma foldl_hmInsert_append {κ β : Type} [DecidableEq κ]
    (l : List (κ × β)) (acc : List (κ × β))
    (h : (acc.map Prod.fst ++ l.map Prod.fst).Nodup) :
    l.foldl hmInsert acc = acc ++ l := by
  induction l generalizing acc with
  | nil => simp
  | cons kv rest ih =>
    simp only [List.foldl_cons]
    have hnotin : kv.1 ∉ acc.map Prod.fst := by
      intro hmem
      rw [List.map_cons, List.nodup_append] at h
      exact h.2.2 hmem (by simp)
    rw [hmInsert_append hnotin]
    rw [ih (acc ++ [kv]) (by simpa [List.append_assoc] using h)]
    simp

lemma from_entry_vec_entries_of_nodup {l : List Entry} {v : CongkitVersion}
    (h : (l.map Entry.traditional).Nodup) :
    (CongkitDB.from_entry_vec l v).entries =
      l.map (fun e => (e.traditional, setCode v e)) := by
  unfold CongkitDB.from_entry_vec hmOfList
  simp only
  rw [foldl_hmInsert_append _ [] (by simpa [List.map_map, Function.comp])]
  rfl

/-- C6 (amended): provided the parsed source has no duplicate
`traditional` characters (no last-wins key collisions), the entry set of
the table built with `CongkitFilter.all` is a superset of the entry set
of the table built with any filter F. -/
theorem claim_C6_filter_monotonicity (txt : String) (v : CongkitVersion)
    (F : CongkitFilter) (lp : List Entry)
    (hok : parsedEntries txt = Except.ok lp)
    (hnd : (lp.map Entry.traditional).Nodup) :
    ∃ dbA dbF,
      CongkitDB.from_txt txt v CongkitFilter.all = Except.ok dbA ∧
      CongkitDB.from_txt txt v F = Except.ok dbF ∧
      ∀ e ∈ hmValues dbF.entries, e ∈ hmValues dbA.entries := by
  refine ⟨CongkitDB.from_entry_vec
            (lp.filter (fun e => apply_filters e CongkitFilter.all)) v,
          CongkitDB.from_entry_vec
            (lp.filter (fun e => apply_filters e F)) v, ?_, ?_, ?_⟩
  · unfold CongkitDB.from_txt to_entries
    rw [hok]
    rfl
  · unfold CongkitDB.from_txt to_entries
    rw [hok]
    rfl
  · have hndA : ((lp.filter
        (fun e => apply_filters e CongkitFilter.all)).map
          Entry.traditional).Nodup :=
      ((List.filter_sublist lp).map Entry.traditional).nodup hnd
    have hndF : ((lp.filter (fun e => apply_filters e F)).map
        Entry.traditional).Nodup :=
      ((List.filter_sublist lp).map Entry.traditional).nodup hnd
    rw [from_entry_vec_entries_of_nodup hndA,
        from_entry_vec_entries_of_nodup hndF]
    intro e he
    simp only [hmValues, List.map_map, List.mem_map,
      Function.comp] at he ⊢
    obtain ⟨e0, he0, heq⟩ := he
    refine ⟨e0, ?_, heq⟩
    have hmemF := List.mem_filter.mp he0
    exact List.mem_filter.mpr ⟨hmemF.1, apply_filters_all_of hmemF.2⟩

/-- Two lines with the same `traditional` character `我`: the first is
chinese-only, the second kanji-only. -/
def txtDup : String :=
  "我 我 1 0 0 0 0 0 0 0 0 aaa bbb cc 1\n我 他 0 0 0 0 1 0 0 0 0 ddd eee ff 2"

/-- C6 as stated is false: with a duplicate `traditional` key the
last-wins keying makes `from_txt` with `CongkitFilter.all` store the
second entry under `我`, while building with `CongkitFilter.chineseFilter`
stores the first; so the chinese-build's entry set is NOT a subset of the
all-build's entry set. -/
theorem claim_C6_counterexample :
    (CongkitDB.from_txt txtDup CongkitVersion.V3
        CongkitFilter.chineseFilter).map (fun dbF =>
      (CongkitDB.from_txt txtDup CongkitVersion.V3 CongkitFilter.all).map
        (fun dbA =>
          (hmValues dbF.entries).all
            (fun e => decide (e ∈ hmValues dbA.entries)))) =
      Except.ok (Except.ok false) := by
  decide

/-- Two lines with distinct `traditional` characters. -/
def txtW6 : String :=
  "我 我 1 0 0 0 0 0 0 0 0 aaa bbb cc 1\n犬 犬 0 0 0 0 1 0 0 0 0 ddd eee ff 2"

/-- The parsed entries of `txtW6`. -/
def lpW6 : List Entry := (parsedEntries txtW6).toOption.getD []

theorem claim_C6_witness :
    ∃ dbA dbF,
      CongkitDB.from_txt txtW6 CongkitVersion.V3 CongkitFilter.all =
        Except.ok dbA ∧
      CongkitDB.from_txt txtW6 CongkitVersion.V3 CongkitFilter.japanese =
        Except.ok dbF ∧
      ∀ e ∈ hmValues dbF.entries, e ∈ hmValues dbA.entries :=
  claim_C6_filter_monotonicity txtW6 CongkitVersion.V3
    CongkitFilter.japanese lpW6 (by decide) (by decide)

lemma hmGet_hmInsert_self {κ β : Type} [DecidableEq κ] (m : List (κ × β))
    (kv : κ × β) : hmGet (hmInsert m kv) kv.1 = some kv.2 := by
  induction m with
  | nil => simp [hmGet, hmInsert, List.find?]
  | cons kv0 rest ih =>
    obtain ⟨k, v⟩ := kv0
    rw [show hmInsert ((k, v) :: rest) kv =
      if k = kv.1 then kv :: rest else (k, v) :: hmInsert rest kv from rfl]
    by_cases hk : k = kv.1
    · rw [if_pos hk]
      simp [hmGet, List.find?]
    · rw [if_neg hk]
      rw [show hmGet ((k, v) :: hmInsert rest kv) kv.1 =
        if (k == kv.1) = true then some v else hmGet (hmInsert rest kv) kv.1
        by simp [hmGet, List.find?_cons]; split <;> simp_all]
      rw [if_neg (by simpa using hk)]
      exact ih

lemma hmGet_cons {κ β : Type} [DecidableEq κ] (k : κ) (v : β)
    (rest : List (κ × β)) (q : κ) :
    hmGet ((k, v) :: rest) q =
      if k = q then some v else hmGet rest q := by
  by_cases hk : k = q
  · rw [if_pos hk]
    simp [hmGet, List.find?, hk]
  · rw [if_neg hk]
    unfold hmGet
    rw [List.find?_cons]
    simp only
    rw [show ((k, v).1 == q) = false by simpa using hk]

lemma hmGet_hmInsert_ne {κ β : Type} [DecidableEq κ] (m : List (κ × β))
    (kv : κ × β) (q : κ) (hq : q ≠ kv.1) :
    hmGet (hmInsert m kv) q = hmGet m q := by
  induction m with
  | nil =>
    rw [show hmInsert ([] : List (κ × β)) kv = [kv] from rfl]
    obtain ⟨k1, v1⟩ := kv
    rw [hmGet_cons]
    simp only at hq
    rw [if_neg (fun h => hq h.symm)]
  | cons kv0 rest ih =>
    obtain ⟨k, v⟩ := kv0
    rw [show hmInsert ((k, v) :: rest) kv =
      if k = kv.1 then kv :: rest else (k, v) :: hmInsert rest kv from rfl]
    by_cases hk : k = kv.1
    · rw [if_pos hk]
      obtain ⟨k1, v1⟩ := kv
      rw [hmGet_cons, hmGet_cons]
      simp only at hq
      rw [if_neg (fun h => hq h.symm), if_neg (by rw [hk]; exact fun h => hq h.symm)]
    · rw [if_neg hk]
      rw [hmGet_cons, hmGet_cons, ih]

lemma hmGet_foldl_not_mem {κ β : Type} [DecidableEq κ]
    {pairs : List (κ × β)} {q : κ} (hq : q ∉ pairs.map Prod.fst)
    (acc : List (κ × β)) :
    hmGet (pairs.foldl hmInsert acc) q = hmGet acc q := by
  induction pairs generalizing acc with
  | nil => rfl
  | cons kv rest ih =>
    simp only [List.map_cons, List.mem_cons] at hq
    push_neg at hq
    simp only [List.foldl_cons]
    rw [ih hq.2, hmGet_hmInsert_ne _ _ _ hq.1]

lemma hmGet_foldl_of_mem {κ β : Type} [DecidableEq κ]
    {pairs : List (κ × β)} {q : κ} {v : β} (hq : (q, v) ∈ pairs)
    (huniq : ∀ w, (q, w) ∈ pairs → w = v) (acc : List (κ × β)) :
    hmGet (pairs.foldl hmInsert acc) q = some v := by
  induction pairs generalizing acc with
  | nil => simp at hq
  | cons kv rest ih =>
    simp only [List.foldl_cons]
    by_cases hqr : q ∈ rest.map Prod.fst
    · obtain ⟨pr, hpr, hfst⟩ := List.mem_map.mp hqr
      have hw : (q, pr.2) ∈ rest := by
        obtain ⟨p1, p2⟩ := pr
        simp only at hfst
        rw [← hfst]
        exact hpr
      have hv : pr.2 = v := huniq pr.2 (List.mem_cons_of_mem _ hw)
      exact ih (hv ▸ hw)
        (fun w hwmem => huniq w (List.mem_cons_of_mem _ hwmem)) _
    · have hhead : kv = (q, v) := by
        rcases List.mem_cons.mp hq with h | h
        · exact h.symm
        · exact absurd (List.mem_map_of_mem Prod.fst h) hqr
      subst hhead
      rw [hmGet_foldl_not_mem hqr]
      exact hmGet_hmInsert_self acc (q, v)

lemma except_map_ok {α β ε : Type} (f : α → β) (a : α) :
    (Except.ok a : Except ε α).map f = Except.ok (f a) := rfl

lemma except_map_error {α β ε : Type} (f : α → β) (e : ε) :
    (Except.error e : Except ε α).map f = Except.error e := rfl

lemma mapME_ok_forall {α β ε : Type} {f : α → Except ε β} {l : List α}
    {res : List β} (h : mapME f l = Except.ok res) :
    ∀ x ∈ l, ∃ y, f x = Except.ok y ∧ y ∈ res := by
  induction l generalizing res with
  | nil => intro x hx; simp at hx
  | cons a as ih =>
    intro x hx
    cases hfa : f a with
    | error e =>
      rw [show mapME f (a :: as) = Except.error e by
        simp [mapME, hfa]] at h
      exact absurd h (by simp)
    | ok y =>
      cases hrest : mapME f as with
      | error e =>
        rw [show mapME f (a :: as) = Except.error e by
          simp [mapME, hfa, hrest]] at h
        exact absurd h (by simp)
      | ok ys =>
        rw [show mapME f (a :: as) = Except.ok (y :: ys) by
          simp [mapME, hfa, hrest]] at h
        simp only [Except.ok.injEq] at h
        subst h
        rcases List.mem_cons.mp hx with hxa | hxas
        · exact ⟨y, hxa ▸ hfa, List.mem_cons_self _ _⟩
        · obtain ⟨y2, hy2, hy2mem⟩ := ih hrest x hxas
          exact ⟨y2, hy2, List.mem_cons_of_mem _ hy2mem⟩

lemma compiled_pairs_spec {codes : List String}
    {pairs : List (String × List Token)}
    (h : mapME (fun c => (compilePattern c).map (fun ts => (c, ts))) codes =
      Except.ok pairs) :
    ∀ pr ∈ pairs, compilePattern pr.1 = Except.ok pr.2 := by
  induction codes generalizing pairs with
  | nil =>
    rw [show mapME (fun c => (compilePattern c).map (fun ts => (c, ts)))
      ([] : List String) = Except.ok [] from rfl] at h
    simp only [Except.ok.injEq] at h
    subst h
    intro pr hpr
    simp at hpr
  | cons c cs ih =>
    cases hc : compilePattern c with
    | error e =>
      rw [show mapME (fun c => (compilePattern c).map (fun ts => (c, ts)))
        (c :: cs) = Except.error e by
          simp [mapME, hc, except_map_error]] at h
      exact absurd h (by simp)
    | ok ts =>
      cases hrest :
        mapME (fun c => (compilePattern c).map (fun ts => (c, ts))) cs with
      | error e =>
        rw [show mapME (fun c => (compilePattern c).map (fun ts => (c, ts)))
          (c :: cs) = Except.error e by
            simp [mapME, hc, hrest, except_map_ok]] at h
        exact absurd h (by simp)
      | ok ys =>
        rw [show mapME (fun c => (compilePattern c).map (fun ts => (c, ts)))
          (c :: cs) = Except.ok ((c, ts) :: ys) by
            simp [mapME, hc, hrest, except_map_ok]] at h
        simp only [Except.ok.injEq] at h
        subst h
        intro pr hpr
        rcases List.mem_cons.mp hpr with hh | hh
        · subst hh
          exact hc
        · exact ih hrest pr hh

lemma hmGet_mapVal {κ β γ : Type} [DecidableEq κ] (m : List (κ × β))
    (g : κ × β → γ) (q : κ) :
    hmGet (m.map (fun pr => (pr.1, g pr))) q =
      (m.find? (fun pr => pr.1 == q)).map g := by
  induction m with
  | nil => rfl
  | cons pr0 rest ih =>
    obtain ⟨k, v⟩ := pr0
    rw [List.map_cons, hmGet_cons, List.find?_cons]
    by_cases hk : k = q
    · rw [if_pos hk, show ((k, v).1 == q) = true by simpa using hk]
      rfl
    · rw [if_neg hk, show ((k, v).1 == q) = false by simpa using hk]
      exact ih

/-- C3: when `get_chars_mult` succeeds on a pattern list P, its result at
every pattern p of P is exactly `get_characters p` on the same table; and
if any pattern of P fails to compile, `get_chars_mult` fails outright
(fail-fast, no partial results). -/
theorem claim_C3_batch_equivalence (db : CongkitDB) (P : List String) :
    (∀ m, CongkitDB.get_chars_mult db P = Except.ok m →
      ∀ p ∈ P, ∃ cs, hmGet m p = some cs ∧
        CongkitDB.get_characters db p = Except.ok cs) ∧
    (∀ p ∈ P, (∃ err, compilePattern p = Except.error err) →
      ∃ err2, CongkitDB.get_chars_mult db P = Except.error err2) := by
  constructor
  · intro m hm p hp
    unfold CongkitDB.get_chars_mult at hm
    cases hc : mapME (fun c => (compilePattern c).map (fun ts => (c, ts))) P with
    | error e => rw [hc] at hm; exact absurd hm (by simp [Except.map])
    | ok pairs =>
      rw [hc] at hm
      simp only [Except.map, Except.ok.injEq] at hm
      subst hm
      obtain ⟨y, hy, hymem⟩ := mapME_ok_forall hc p hp
      cases hcp : compilePattern p with
      | error e =>
        rw [hcp] at hy
        exact absurd hy (by simp [Except.map])
      | ok ts =>
        rw [hcp] at hy
        simp only [Except.map, Except.ok.injEq] at hy
        subst hy
        have huniq : ∀ w, (p, w) ∈ pairs → w = ts := by
          intro w hw
          have := compiled_pairs_spec hc (p, w) hw
          rw [hcp] at this
          exact (Except.ok.injEq _ _).mp this.symm
        have hfind : (hmOfList pairs).find? (fun pr => pr.1 == p) =
            some (p, ts) := by
          have hget : hmGet (hmOfList pairs) p = some ts :=
            hmGet_foldl_of_mem hymem huniq []
          unfold hmGet at hget
          cases hf : (hmOfList pairs).find? (fun pr => pr.1 == p) with
          | none => rw [hf] at hget; exact absurd hget (by simp)
          | some pr =>
            rw [hf] at hget
            simp only [Option.map_some'] at hget
            have hfst : pr.1 = p := by simpa using List.find?_some hf
            obtain ⟨p1, p2⟩ := pr
            simp only at hfst hget
            rw [hfst, Option.some.inj hget]
        refine ⟨(matchingSorted db ts).map Entry.traditional, ?_, ?_⟩
        · rw [show (fun pr : String × List Token =>
            (pr.1, (matchingSorted db pr.2).map Entry.traditional)) =
            (fun pr : String × List Token =>
              (pr.1, (fun x : String × List Token =>
                (matchingSorted db x.2).map Entry.traditional) pr)) from rfl]
          rw [hmGet_mapVal]
          rw [hfind]
          rfl
        · unfold CongkitDB.get_characters
          rw [hcp]
          rfl
  · intro p hp herr
    obtain ⟨err, herr⟩ := herr
    have hferr : ((compilePattern p).map (fun ts => (p, ts)) :
        Except PatternError (String × List Token)) = Except.error err := by
      rw [herr]
      rfl
    obtain ⟨e2, he2⟩ := mapME_error_of_mem
      (f := fun c => (compilePattern c).map (fun ts => (c, ts))) hp hferr
    refine ⟨e2, ?_⟩
    unfold CongkitDB.get_chars_mult
    rw [he2]
    rfl

/-- The batch result of `get_chars_mult` on `dbW0` for two patterns. -/
def mW3 : List (String × List Char) :=
  (CongkitDB.get_chars_mult dbW0 ["onf*", "x"]).toOption.getD []

theorem claim_C3_witness :
    (∃ cs, hmGet mW3 "onf*" = some cs ∧
      CongkitDB.get_characters dbW0 "onf*" = Except.ok cs) ∧
    (∃ err2, CongkitDB.get_chars_mult dbW0 ["("] = Except.error err2) :=
  ⟨(claim_C3_batch_equivalence dbW0 ["onf*", "x"]).1 mW3 (by decide)
      "onf*" (by decide),
   (claim_C3_batch_equivalence dbW0 ["("]).2 "(" (by decide)
      ⟨PatternError.invalid, by decide⟩⟩
